import Mathlib

/-!
Verification of the date-inference engine and its collaborators from the
blog-export converter ("dmp").  The Python sources are shallowly embedded:

* `src/parsers/date_parser.py`   — `DateParser` (the core date-inference engine)
* `src/processors/tag_indexer.py`— `TagIndexer._generate_post_id`
* `src/processors/content_processor.py` — `ContentProcessor.extract_preview`

Python strings are modelled as `List Char` (a Python `str` is a sequence of
code points; `len` and slicing are by code point).  The regular-expression
character classes `\w`, `\d`, `\s` are modelled over their ASCII ranges,
which cover every string the program's own formats produce.  The external
`dateutil` fuzzy parser is a library black box; it is taken as a parameter
`du : Nat → String → Except DuErr Date` whose `Nat` argument models the
current clock that `dateutil` consults when it defaults missing date
components (spec §4, §9), and whose error type `DuErr` lists the three
exception classes the source catches around it.
-/

namespace DMP

/-! ### ASCII character classes, as used by `re` on the program's data

`\d` is `[0-9]`, `\w` is `[A-Za-z0-9_]`, `\s` is `[ \t\n\r\v\f]` (ASCII
fragments of the Unicode-aware Python classes). -/

def isDigitC (c : Char) : Bool := 48 ≤ c.toNat && c.toNat ≤ 57

def isAlphaC (c : Char) : Bool :=
  (65 ≤ c.toNat && c.toNat ≤ 90) || (97 ≤ c.toNat && c.toNat ≤ 122)

def isWordC (c : Char) : Bool := isAlphaC c || isDigitC c || c = '_'

def isSpaceC (c : Char) : Bool :=
  c = '\x20' || c = '\t' || c = '\n' || c = '\r' || c = '\x0b' || c = '\x0c'

/-- ASCII lower-casing, as applied by `re.IGNORECASE` and `strptime` on the
month names. -/
def toLowerC (c : Char) : Char :=
  if 65 ≤ c.toNat && c.toNat ≤ 90 then Char.ofNat (c.toNat + 32) else c

/-! ### Calendar dates (`datetime.date`) -/

/-- A plain year/month/day triple.  `datetime.date` objects always satisfy
`Date.Valid` below; here the structure is kept raw so that validity is a
provable property, not a typing assumption. -/
structure Date where
  year : Nat
  month : Nat
  day : Nat
deriving DecidableEq, Repr

/-- Gregorian leap-year rule used by `datetime` / `calendar`. -/
def isLeapYear (y : Nat) : Bool := y % 4 = 0 && (y % 100 ≠ 0 || y % 400 = 0)

def daysInMonth (y m : Nat) : Nat :=
  if m = 2 then (if isLeapYear y then 29 else 28)
  else if m = 4 ∨ m = 6 ∨ m = 9 ∨ m = 11 then 30
  else 31

/-- The invariant every constructed `datetime.date` satisfies
(`MINYEAR = 1`, `MAXYEAR = 9999`, day within the month). -/
def Date.Valid (d : Date) : Prop :=
  1 ≤ d.year ∧ d.year ≤ 9999 ∧ 1 ≤ d.month ∧ d.month ≤ 12 ∧
    1 ≤ d.day ∧ d.day ≤ daysInMonth d.year d.month

instance (d : Date) : Decidable d.Valid := by
  unfold Date.Valid; infer_instance

/-! ### `DateParser._clean_ordinal_suffix`

`re.sub(r'\b(\d+)(?:st|nd|rd|th)\b', r'\1', text)` (no IGNORECASE flag).
The scan below is the left-to-right, leftmost-match, non-overlapping
semantics of `re.sub` specialised to this pattern: a match needs a word
boundary (the previous character is absent or a non-word character), a
maximal nonempty digit run, one of the four lowercase suffixes, and a word
boundary after the suffix.  When the suffix test fails the scanner advances
one character; no later position inside the digit run can start a match
(there is no word boundary there), so the whole run is emitted verbatim. -/

/-- Recognise `(?:st|nd|rd|th)\b` at the head of the list; on success return
the remainder after the two suffix characters. -/
def stripOrdinal : List Char → Option (List Char)
  | a :: b :: rest =>
    if ((a = 's' ∧ b = 't') ∨ (a = 'n' ∧ b = 'd') ∨
        (a = 'r' ∧ b = 'd') ∨ (a = 't' ∧ b = 'h')) ∧
        isWordC (rest.headD '\x20') = false then
      some rest
    else none
  | _ => none

/-- One `re.sub` scan.  `prevW` records whether the previous character was a
word character (`false` at the start of the string); the fuel argument is
only a structural-recursion device and any value `≥ length` is exact. -/
def cleanAux : Nat → Bool → List Char → List Char
  | 0, _, cs => cs
  | _ + 1, _, [] => []
  | fuel + 1, prevW, c :: cs =>
    if prevW = false ∧ isDigitC c = true then
      match stripOrdinal ((c :: cs).dropWhile isDigitC) with
      | some rest => (c :: cs).takeWhile isDigitC ++ cleanAux fuel true rest
      | none => c :: cleanAux fuel true cs
    else
      c :: cleanAux fuel (isWordC c) cs

def clean_ordinal_suffix (s : String) : String :=
  ⟨cleanAux s.data.length false s.data⟩

/-! ### `DateParser._try_regex_pattern`

`re.search(r'(\w+day)\s+(\d+)(?:st|nd|rd|th)\s+(\w+),?\s+(\d{4})', title,
re.IGNORECASE)`.  `re.search` tries every start position from the left and
returns the first successful one.  At a fixed start position the attempt is
deterministic: each quantified piece is bounded by a disjoint follower
(`\w+day` must end where the word run ends because `\s+` follows; the digit
run and whitespace runs are maximal because their followers are disjoint
character classes; the four ordinal alternatives start with distinct
letters; giving characters back never enables an alternative), so
backtracking can be compiled away into straight-line scanning. -/

/-- The `(?:st|nd|rd|th)` alternation under `re.IGNORECASE`. -/
def sufPair (a b : Char) : Bool :=
  ((a = 's' ∨ a = 'S') ∧ (b = 't' ∨ b = 'T')) ∨
  ((a = 'n' ∨ a = 'N') ∧ (b = 'd' ∨ b = 'D')) ∨
  ((a = 'r' ∨ a = 'R') ∧ (b = 'd' ∨ b = 'D')) ∨
  ((a = 't' ∨ a = 'T') ∧ (b = 'h' ∨ b = 'H'))

/-- Does the word run end in `day` (case-insensitively)?  Together with a
length `≥ 4` check this is exactly when `\w+day` can consume the run. -/
def endsDay (wd : List Char) : Bool :=
  match wd.reverse with
  | y :: a :: d :: _ => (y = 'y' ∨ y = 'Y') ∧ (a = 'a' ∨ a = 'A') ∧ (d = 'd' ∨ d = 'D')
  | _ => false

/-- Attempt the pattern at the head of `cs`; on success return the three
used capture groups `(\d+)`, `(\w+)` month and `(\d{4})` (the weekday group
is captured by the source but never used). -/
def matchAt (cs : List Char) : Option (List Char × List Char × List Char) :=
  let wd := cs.takeWhile isWordC
  if wd.length < 4 ∨ endsDay wd = false then none else
  match cs.dropWhile isWordC with
  | c1 :: r1 =>
    if isSpaceC c1 = false then none else
    let r2 := r1.dropWhile isSpaceC
    let day := r2.takeWhile isDigitC
    if day = [] then none else
    match r2.dropWhile isDigitC with
    | a :: b :: r4 =>
      if sufPair a b = false then none else
      match r4 with
      | c2 :: r5 =>
        if isSpaceC c2 = false then none else
        let r6 := r5.dropWhile isSpaceC
        let mon := r6.takeWhile isWordC
        if mon = [] then none else
        let r7 := r6.dropWhile isWordC
        let r8 := match r7 with
                  | ',' :: t => t
                  | t => t
        match r8 with
        | c3 :: r9 =>
          if isSpaceC c3 = false then none else
          let r10 := r9.dropWhile isSpaceC
          let yr := r10.take 4
          if yr.length = 4 ∧ yr.all isDigitC then some (day, mon, yr) else none
        | [] => none
      | [] => none
    | _ => none
  | [] => none

/-- `re.search`: leftmost successful start position wins. -/
def searchPattern : List Char → Option (List Char × List Char × List Char)
  | [] => none
  | c :: cs =>
    match matchAt (c :: cs) with
    | some g => some g
    | none => searchPattern cs

/-! ### `datetime.strptime(date_str, "%d %B %Y")` / `"%d %b %Y"`

`date_str = f"{day} {month_name} {year}"` where the components come from
the groups above, so the day is a nonempty digit string, the month a
nonempty word-character string and the year exactly four digits; none of
them contains whitespace, so `strptime`'s full-string match succeeds
exactly when each directive consumes its whole component.  The parses
below implement the CPython `_strptime` directive regexes componentwise. -/

/-- `%d`, regex `(3[01]|[12]\d|0[1-9]|[1-9])`: one digit `1`-`9`, or two
digits with value `01`-`31`. -/
def parse_d : List Char → Option Nat
  | [a] => if 49 ≤ a.toNat ∧ a.toNat ≤ 57 then some (a.toNat - 48) else none
  | [a, b] =>
    if isDigitC a ∧ isDigitC b ∧
        1 ≤ 10 * (a.toNat - 48) + (b.toNat - 48) ∧
        10 * (a.toNat - 48) + (b.toNat - 48) ≤ 31 then
      some (10 * (a.toNat - 48) + (b.toNat - 48))
    else none
  | _ => none

def lowerL (cs : List Char) : List Char := cs.map toLowerC

def monthFull : List (List Char) :=
  ["january".data, "february".data, "march".data, "april".data,
   "may".data, "june".data, "july".data, "august".data,
   "september".data, "october".data, "november".data, "december".data]

def monthAbbr : List (List Char) :=
  ["jan".data, "feb".data, "mar".data, "apr".data, "may".data, "jun".data,
   "jul".data, "aug".data, "sep".data, "oct".data, "nov".data, "dec".data]

def monthIndex (cs : List Char) : List (List Char) → Nat → Option Nat
  | [], _ => none
  | n :: ns, i => if cs = n then some i else monthIndex cs ns (i + 1)

/-- `%B`: a full month name, case-insensitively. -/
def parse_B (cs : List Char) : Option Nat := monthIndex (lowerL cs) monthFull 1

/-- `%b`: an abbreviated month name, case-insensitively. -/
def parse_b (cs : List Char) : Option Nat := monthIndex (lowerL cs) monthAbbr 1

def natOfDigits (cs : List Char) : Nat :=
  cs.foldl (fun acc c => acc * 10 + (c.toNat - 48)) 0

/-- `%Y`, regex `(\d\d\d\d)`: exactly four digits. -/
def parse_Y (cs : List Char) : Option Nat :=
  if cs.length = 4 ∧ cs.all isDigitC then some (natOfDigits cs) else none

/-- `strptime` with `"%d %B %Y"` on the reconstructed
`f"{day} {month} {year}"`, including the `datetime(year, month, day)`
calendar validation (`MINYEAR ≤ year ≤ MAXYEAR`, day within the month;
`1 ≤ day` and `1 ≤ month ≤ 12` already hold by construction of the
directive parses). -/
def strptime_d_B_Y (dayS monS yrS : List Char) : Option Date :=
  match parse_d dayS, parse_B monS, parse_Y yrS with
  | some d, some m, some y =>
    if 1 ≤ y ∧ y ≤ 9999 ∧ d ≤ daysInMonth y m then some ⟨y, m, d⟩ else none
  | _, _, _ => none

/-- `strptime` with `"%d %b %Y"` (abbreviated month names). -/
def strptime_d_b_Y (dayS monS yrS : List Char) : Option Date :=
  match parse_d dayS, parse_b monS, parse_Y yrS with
  | some d, some m, some y =>
    if 1 ≤ y ∧ y ≤ 9999 ∧ d ≤ daysInMonth y m then some ⟨y, m, d⟩ else none
  | _, _, _ => none

/-- `DateParser._try_regex_pattern`: search for the pattern, rebuild the
compact date string, parse it against `%d %B %Y`, and on `ValueError`
against `%d %b %Y`; any remaining `ValueError` is swallowed (`None`). -/
def try_regex_pattern (title : String) : Option Date :=
  match searchPattern title.data with
  | some (day, mon, yr) =>
    match strptime_d_B_Y day mon yr with
    | some dt => some dt
    | none => strptime_d_b_Y day mon yr
  | none => none

/-! ### `DateParser.parse_title_date` and the engine state -/

/-- The three exception classes `_try_dateutil` catches around
`dateutil_parser.parse(text, fuzzy=True)`: `ValueError` (including
`ParserError`), `TypeError` and `OverflowError`.

Modelled from the spec: `dateutil` itself is an external library, not part
of this repository; §4.1 of the spec fixes its interface as a fuzzy parser
that either yields a date or raises/declines with exactly these three
failure conditions. -/
inductive DuErr where
  | valueError
  | typeError
  | overflowError
deriving DecidableEq

/-- `DateParser._try_dateutil`: run the fuzzy parser and swallow all three
exception classes into `None`.  `du now text` is the library call; `now`
models the current clock it may consult for missing components. -/
def try_dateutil (du : Nat → String → Except DuErr Date) (now : Nat)
    (text : String) : Option Date :=
  match du now text with
  | .ok d => some d
  | .error _ => none

/-- The engine's only mutable state: `self.failed_parses`. -/
structure DateParserState where
  failed_parses : List String
deriving DecidableEq

/-- The body of `parse_title_date` after the `if not title` guard: the
ordered fallback chain on a nonempty title string, returning the outcome
and the updated state (a `date` is always truthy, so each `if result:`
test is exactly an `Option` match). -/
def parse_core (du : Nat → String → Except DuErr Date) (now : Nat)
    (st : DateParserState) (title : String) : Option Date × DateParserState :=
  match try_dateutil du now (clean_ordinal_suffix title) with
  | some result => (some result, st)
  | none =>
    match try_regex_pattern title with
    | some result => (some result, st)
    | none =>
      match try_dateutil du now title with
      | some result => (some result, st)
      | none => (none, ⟨st.failed_parses ++ [title]⟩)

/-- Python values a caller might pass for `title`.  `none_` is `None`;
`int_` stands in for every non-string object (any truthy non-string makes
`re.sub` raise `TypeError: expected string or bytes-like object`). -/
inductive PyVal where
  | none_
  | str (s : String)
  | int_ (n : Int)
deriving DecidableEq

/-- The exceptions that can escape `parse_title_date`. -/
inductive PyExn where
  | typeError
deriving DecidableEq

/-- `DateParser.parse_title_date`.  `if not title: return None` admits
`None`, the empty string and falsy non-strings; a truthy non-string reaches
`re.sub` inside `_clean_ordinal_suffix` and raises `TypeError`, which no
handler in the method catches. -/
def parse_title_date (du : Nat → String → Except DuErr Date) (now : Nat)
    (st : DateParserState) : PyVal → Except PyExn (Option Date × DateParserState)
  | .none_ => .ok (none, st)
  | .str s => if s = "" then .ok (none, st) else .ok (parse_core du now st s)
  | .int_ n => if n = 0 then .ok (none, st) else .error .typeError

/-- `DateParser.get_failed_parses` (returns a copy of the list; a copy of
an immutable model list is the list itself). -/
def get_failed_parses (st : DateParserState) : List String := st.failed_parses

/-- `DateParser.get_success_rate`.  Python computes
`(successes / total_attempts) * 100` in IEEE doubles; the model uses exact
rationals (every value this development mentions — `0`, `70`, `100`,
`-200` — is produced exactly by the float code as well). -/
def get_success_rate (st : DateParserState) (total_attempts : Int) : ℚ :=
  if total_attempts = 0 then 0
  else ((total_attempts : ℚ) - (st.failed_parses.length : ℚ)) / (total_attempts : ℚ) * 100

/-- Feeding a batch of titles through `parse_title_date`, keeping the state
(the Python caller loops over posts with one `DateParser` instance). -/
def parse_many (du : Nat → String → Except DuErr Date) (now : Nat)
    (st : DateParserState) (titles : List String) : DateParserState :=
  titles.foldl
    (fun st t =>
      match parse_title_date du now st (.str t) with
      | .ok (_, st') => st'
      | .error _ => st)
    st

/-- A fuzzy parser that always declines (raises `ParserError`, a
`ValueError`): the behaviour of `dateutil` on text containing no date. -/
def duNone : Nat → String → Except DuErr Date := fun _ _ => .error .valueError

/-! ### `ContentProcessor.extract_preview`

`BeautifulSoup(html).get_text(separator=' ', strip=True)` is an external
HTML library call and is abstracted as a parameter `getText`; everything
after it — the `re.sub(r'\s+', ' ', text)` collapse and the
`text[:max_length].rsplit(' ', 1)[0] + '...'` truncation — is embedded. -/

/-- `re.sub(r'\s+', ' ', text)`: each maximal whitespace run becomes one
space.  `prevSp` records whether the previous character was whitespace, so
only the first character of a run is emitted (as a space). -/
def collapseAux : Bool → List Char → List Char
  | _, [] => []
  | prevSp, c :: cs =>
    if isSpaceC c then
      if prevSp then collapseAux true cs else '\x20' :: collapseAux true cs
    else c :: collapseAux false cs

def collapse_ws (cs : List Char) : List Char := collapseAux false cs

/-- `cs.rsplit(' ', 1)` when `' '` occurs: `some` of the part before the
last space.  `none` when there is no space (then `[0]` is the whole
string). -/
def before_last_space : List Char → Option (List Char)
  | [] => none
  | c :: cs =>
    match before_last_space cs with
    | some p => some (c :: p)
    | none => if c = '\x20' then some [] else none

/-- `text[:max_length].rsplit(' ', 1)[0]`. -/
def rsplit_first (cs : List Char) : List Char := (before_last_space cs).getD cs

/-- The plain text the code derives from the HTML before truncating. -/
def extracted_text (getText : String → String) (html : String) : List Char :=
  collapse_ws (getText html).data

/-- `ContentProcessor.extract_preview` (the `except Exception: return ""`
arm is unreachable in the model because `getText` is total). -/
def extract_preview (getText : String → String) (html : String)
    (max_length : Nat) : String :=
  if html = "" then ""
  else
    let text := extracted_text getText html
    if text.length > max_length then
      ⟨rsplit_first (text.take max_length) ++ ['.', '.', '.']⟩
    else ⟨text⟩

/-! ### `TagIndexer._generate_post_id`

The fallback branch is `hashlib.md5(post.title.encode()).hexdigest()[:8]`;
MD5 is embedded in full (RFC 1321) over `Nat` with explicit `% 2^32`. -/

/-- UTF-8 encoding of one code point (`str.encode()`). -/
def utf8Bytes (c : Nat) : List Nat :=
  if c < 128 then [c]
  else if c < 2048 then [192 + c / 64, 128 + c % 64]
  else if c < 65536 then [224 + c / 4096, 128 + c / 64 % 64, 128 + c % 64]
  else [240 + c / 262144, 128 + c / 4096 % 64, 128 + c / 64 % 64, 128 + c % 64]

def strBytes (s : String) : List Nat := (s.data.map (fun c => utf8Bytes c.toNat)).flatten

/-- The 64 MD5 round constants `K[i] = floor(2^32 * |sin(i+1)|)`. -/
def md5K : List Nat :=
  [0xd76aa478, 0xe8c7b756, 0x242070db, 0xc1bdceee,
   0xf57c0faf, 0x4787c62a, 0xa8304613, 0xfd469501,
   0x698098d8, 0x8b44f7af, 0xffff5bb1, 0x895cd7be,
   0x6b901122, 0xfd987193, 0xa679438e, 0x49b40821,
   0xf61e2562, 0xc040b340, 0x265e5a51, 0xe9b6c7aa,
   0xd62f105d, 0x02441453, 0xd8a1e681, 0xe7d3fbc8,
   0x21e1cde6, 0xc33707d6, 0xf4d50d87, 0x455a14ed,
   0xa9e3e905, 0xfcefa3f8, 0x676f02d9, 0x8d2a4c8a,
   0xfffa3942, 0x8771f681, 0x6d9d6122, 0xfde5380c,
   0xa4beea44, 0x4bdecfa9, 0xf6bb4b60, 0xbebfbc70,
   0x289b7ec6, 0xeaa127fa, 0xd4ef3085, 0x04881d05,
   0xd9d4d039, 0xe6db99e5, 0x1fa27cf8, 0xc4ac5665,
   0xf4292244, 0x432aff97, 0xab9423a7, 0xfc93a039,
   0x655b59c3, 0x8f0ccc92, 0xffeff47d, 0x85845dd1,
   0x6fa87e4f, 0xfe2ce6e0, 0xa3014314, 0x4e0811a1,
   0xf7537e82, 0xbd3af235, 0x2ad7d2bb, 0xeb86d391]

/-- The per-round left-rotation amounts. -/
def md5S : List Nat :=
  [7, 12, 17, 22, 7, 12, 17, 22, 7, 12, 17, 22, 7, 12, 17, 22,
   5, 9, 14, 20, 5, 9, 14, 20, 5, 9, 14, 20, 5, 9, 14, 20,
   4, 11, 16, 23, 4, 11, 16, 23, 4, 11, 16, 23, 4, 11, 16, 23,
   6, 10, 15, 21, 6, 10, 15, 21, 6, 10, 15, 21, 6, 10, 15, 21]

def rotl32 (x s : Nat) : Nat := x * 2 ^ s % 4294967296 + x / 2 ^ (32 - s)

def not32 (x : Nat) : Nat := x ^^^ 4294967295

structure MD5St where
  a : Nat
  b : Nat
  c : Nat
  d : Nat

def md5Step (M : List Nat) (st : MD5St) (i : Nat) : MD5St :=
  let fg :=
    if i < 16 then ((st.b &&& st.c) ||| (not32 st.b &&& st.d), i)
    else if i < 32 then ((st.d &&& st.b) ||| (not32 st.d &&& st.c), (5 * i + 1) % 16)
    else if i < 48 then (st.b ^^^ st.c ^^^ st.d, (3 * i + 5) % 16)
    else (st.c ^^^ (st.b ||| not32 st.d), 7 * i % 16)
  let tmp := (fg.1 + st.a + md5K.getD i 0 + M.getD fg.2 0) % 4294967296
  ⟨st.d, (st.b + rotl32 tmp (md5S.getD i 0)) % 4294967296, st.b, st.c⟩

/-- Group little-endian bytes into 32-bit words. -/
def toWordsLE : List Nat → List Nat
  | b0 :: b1 :: b2 :: b3 :: rest =>
    (b0 + 256 * b1 + 65536 * b2 + 16777216 * b3) :: toWordsLE rest
  | _ => []

def chunksAux : Nat → List Nat → List (List Nat)
  | 0, _ => []
  | _, [] => []
  | n + 1, l => l.take 64 :: chunksAux n (l.drop 64)

def le64 (n : Nat) : List Nat :=
  [n % 256, n / 256 % 256, n / 65536 % 256, n / 16777216 % 256,
   n / 4294967296 % 256, n / 1099511627776 % 256,
   n / 281474976710656 % 256, n / 72057594037927936 % 256]

def hexDigit (n : Nat) : Char :=
  match n % 16 with
  | 0 => '0' | 1 => '1' | 2 => '2' | 3 => '3' | 4 => '4'
  | 5 => '5' | 6 => '6' | 7 => '7' | 8 => '8' | 9 => '9'
  | 10 => 'a' | 11 => 'b' | 12 => 'c' | 13 => 'd' | 14 => 'e' | _ => 'f'

def byteHex (b : Nat) : List Char := [hexDigit (b / 16), hexDigit b]

def wordHexLE (w : Nat) : List Char :=
  byteHex (w % 256) ++ byteHex (w / 256 % 256) ++
  byteHex (w / 65536 % 256) ++ byteHex (w / 16777216 % 256)

/-- `hashlib.md5(bytes).hexdigest()` (RFC 1321). -/
def md5_hex (msg : List Nat) : List Char :=
  let L := msg.length
  let padded := msg ++ 128 :: List.replicate ((119 - L % 64) % 64) 0
      ++ le64 (8 * L % 18446744073709551616)
  let final := (chunksAux padded.length padded).foldl
    (fun st chunk =>
      let M := toWordsLE chunk
      let r := (List.range 64).foldl (md5Step M) st
      ⟨(st.a + r.a) % 4294967296, (st.b + r.b) % 4294967296,
       (st.c + r.c) % 4294967296, (st.d + r.d) % 4294967296⟩)
    ⟨0x67452301, 0xefcdab89, 0x98badcfe, 0x10325476⟩
  wordHexLE final.a ++ wordHexLE final.b ++ wordHexLE final.c ++ wordHexLE final.d

def md5_hexdigest (s : String) : String := ⟨md5_hex (strBytes s)⟩

/-- The `BlogPost` dataclass from `src/parsers/xml_parser.py`. -/
structure BlogPost where
  title : String
  published_iso : String
  content_html : String
  labels : List String := []
  post_id : String := ""
  parsed_date : Option Date := none
  has_images : Bool := false
  image_urls : List String := []
  preview : String := ""

/-- `date.isoformat()`: `YYYY-MM-DD`, zero-padded. -/
def digitChar (n : Nat) : Char :=
  match n % 10 with
  | 0 => '0' | 1 => '1' | 2 => '2' | 3 => '3' | 4 => '4'
  | 5 => '5' | 6 => '6' | 7 => '7' | 8 => '8' | _ => '9'

def pad4 (n : Nat) : List Char :=
  [digitChar (n / 1000), digitChar (n / 100), digitChar (n / 10), digitChar n]

def pad2 (n : Nat) : List Char := [digitChar (n / 10), digitChar n]

def isoformat (d : Date) : String :=
  ⟨pad4 d.year ++ '-' :: pad2 d.month ++ '-' :: pad2 d.day⟩

/-- `TagIndexer._generate_post_id`.  A `date` object is always truthy; a
string is truthy iff nonempty; `published_iso.split('T')[0]` is the part
before the first `'T'`. -/
def generate_post_id (post : BlogPost) : String :=
  match post.parsed_date with
  | some d => "post-" ++ isoformat d
  | none =>
    if post.published_iso ≠ "" then
      "post-" ++ ⟨post.published_iso.data.takeWhile (fun c => c ≠ 'T')⟩
    else
      "post-" ++ ⟨((md5_hexdigest post.title).data.take 8)⟩

/-! ### Titles matching the strict pattern exactly

`"<Weekday> <N><ordinal> <Month>, <YYYY>"` — a weekday name, the day
number with its English ordinal suffix, a full month name, and a
four-digit year. -/

def weekdayName (w : Nat) : List Char :=
  (match w with
   | 0 => "Monday" | 1 => "Tuesday" | 2 => "Wednesday" | 3 => "Thursday"
   | 4 => "Friday" | 5 => "Saturday" | _ => "Sunday" : String).data

def monthName (m : Nat) : List Char :=
  (match m with
   | 1 => "January" | 2 => "February" | 3 => "March" | 4 => "April"
   | 5 => "May" | 6 => "June" | 7 => "July" | 8 => "August"
   | 9 => "September" | 10 => "October" | 11 => "November"
   | _ => "December" : String).data

/-- The English ordinal suffix of a day number (`1st`, `2nd`, `3rd`,
`4th`, …, `11th`, `12th`, `13th`, `21st`, …). -/
def ordinalSuffix (d : Nat) : List Char :=
  if d % 10 = 1 ∧ d % 100 ≠ 11 then ['s', 't']
  else if d % 10 = 2 ∧ d % 100 ≠ 12 then ['n', 'd']
  else if d % 10 = 3 ∧ d % 100 ≠ 13 then ['r', 'd']
  else ['t', 'h']

/-- `"<Weekday> <N><ordinal> <Month>, <YYYY>"` as a string. -/
def mkStrictTitle (w d m y : Nat) : String :=
  ⟨weekdayName w ++ '\x20' :: (Nat.repr d).data ++ ordinalSuffix d ++
    '\x20' :: monthName m ++ ',' :: '\x20' :: pad4 y⟩

/-- A title on which every strategy of the fallback chain fails. -/
def Unparseable (du : Nat → String → Except DuErr Date) (now : Nat)
    (t : String) : Prop :=
  t ≠ "" ∧ try_dateutil du now (clean_ordinal_suffix t) = none ∧
    try_regex_pattern t = none ∧ try_dateutil du now t = none

instance (du : Nat → String → Except DuErr Date) (now : Nat) (t : String) :
    Decidable (Unparseable du now t) := by
  unfold Unparseable; infer_instance

/-- Modelled from the spec: §4 and §9 record that the external fuzzy
parser defaults missing date components (here the year of a
day-plus-month title) from the current date, so its result depends on the
clock.  This parser exhibits exactly that documented behaviour on the
title `"5 March"` and declines everything else. -/
def du_yearless : Nat → String → Except DuErr Date := fun now s =>
  if s = "5 March" then .ok ⟨now, 3, 5⟩ else .error .valueError

/-- Two concrete posts with neither an inferred date nor a raw timestamp:
same content, different titles. -/
def postA : BlogPost := { title := "a", published_iso := "", content_html := "c" }

def postB : BlogPost := { title := "b", published_iso := "", content_html := "c" }

/-- A concrete post carrying an inferred date. -/
def postDated : BlogPost :=
  { title := "x", published_iso := "", content_html := "",
    parsed_date := some ⟨2023, 12, 30⟩ }

end DMP

namespace DMP

/-! ## Helper lemmas -/

theorem try_dateutil_some {du : Nat → String → Except DuErr Date} {now : Nat}
    {s : String} {r : Date} (h : try_dateutil du now s = some r) :
    du now s = .ok r := by
  unfold try_dateutil at h
  cases hdu : du now s <;> rw [hdu] at h <;> simp_all

theorem monthIndex_bounds {cs : List Char} :
    ∀ {l : List (List Char)} {i j : Nat}, monthIndex cs l i = some j →
      i ≤ j ∧ j < i + l.length := by
  intro l
  induction l with
  | nil => intro i j h; simp [monthIndex] at h
  | cons n ns ih =>
    intro i j h
    unfold monthIndex at h
    split at h
    · cases h; simp only [List.length_cons]; omega
    · have := ih h; simp only [List.length_cons]; omega

theorem parse_d_bounds {cs : List Char} {v : Nat} (h : parse_d cs = some v) :
    1 ≤ v ∧ v ≤ 31 := by
  unfold parse_d at h
  split at h
  · split at h
    case isTrue hc => cases h; omega
    case isFalse => simp at h
  · split at h
    case isTrue hc => cases h; omega
    case isFalse => simp at h
  · simp at h

theorem parse_B_bounds {cs : List Char} {m : Nat} (h : parse_B cs = some m) :
    1 ≤ m ∧ m ≤ 12 := by
  have := monthIndex_bounds h
  simp only [monthFull, List.length_cons, List.length_nil] at this
  omega

theorem parse_b_bounds {cs : List Char} {m : Nat} (h : parse_b cs = some m) :
    1 ≤ m ∧ m ≤ 12 := by
  have := monthIndex_bounds h
  simp only [monthAbbr, List.length_cons, List.length_nil] at this
  omega

theorem strptime_d_B_Y_valid {dayS monS yrS : List Char} {dt : Date}
    (h : strptime_d_B_Y dayS monS yrS = some dt) : dt.Valid := by
  unfold strptime_d_B_Y at h
  split at h
  case _ d m y hd hm hy =>
    split at h
    case isTrue hc =>
      cases h
      rcases parse_d_bounds hd with ⟨hd1, -⟩
      rcases parse_B_bounds hm with ⟨hm1, hm2⟩
      exact ⟨hc.1, hc.2.1, hm1, hm2, hd1, hc.2.2⟩
    case isFalse => simp at h
  case _ => simp at h

theorem strptime_d_b_Y_valid {dayS monS yrS : List Char} {dt : Date}
    (h : strptime_d_b_Y dayS monS yrS = some dt) : dt.Valid := by
  unfold strptime_d_b_Y at h
  split at h
  case _ d m y hd hm hy =>
    split at h
    case isTrue hc =>
      cases h
      rcases parse_d_bounds hd with ⟨hd1, -⟩
      rcases parse_b_bounds hm with ⟨hm1, hm2⟩
      exact ⟨hc.1, hc.2.1, hm1, hm2, hd1, hc.2.2⟩
    case isFalse => simp at h
  case _ => simp at h

theorem try_regex_pattern_valid {t : String} {dt : Date}
    (h : try_regex_pattern t = some dt) : dt.Valid := by
  unfold try_regex_pattern at h
  split at h
  case _ day mon yr _ =>
    cases hB : strptime_d_B_Y day mon yr with
    | some d => rw [hB] at h; cases h; exact strptime_d_B_Y_valid hB
    | none => rw [hB] at h; exact strptime_d_b_Y_valid h
  case _ => exact absurd h (by simp)

/-- On an unparseable title, the engine logs it and reports failure. -/
theorem parse_core_unparseable {du : Nat → String → Except DuErr Date}
    {now : Nat} {t : String} (st : DateParserState)
    (h : Unparseable du now t) :
    parse_core du now st t = (none, ⟨st.failed_parses ++ [t]⟩) := by
  rcases h with ⟨-, h1, h2, h3⟩
  unfold parse_core
  rw [h1, h2, h3]

theorem parse_many_unparseable {du : Nat → String → Except DuErr Date}
    {now : Nat} {titles : List String}
    (h : ∀ t ∈ titles, Unparseable du now t) :
    ∀ st : DateParserState,
      parse_many du now st titles = ⟨st.failed_parses ++ titles⟩ := by
  induction titles with
  | nil => intro st; simp [parse_many]
  | cons t ts ih =>
    intro st
    have ht := h t (by simp)
    have hstep : parse_title_date du now st (.str t) =
        .ok (none, ⟨st.failed_parses ++ [t]⟩) := by
      simp only [parse_title_date]
      rw [if_neg ht.1, parse_core_unparseable st ht]
    have := ih (fun u hu => h u (by simp [hu])) ⟨st.failed_parses ++ [t]⟩
    unfold parse_many at this ⊢
    simp only [List.foldl_cons, hstep]
    rw [this]
    simp

/-- The first component of the chain's outcome never reads the state. -/
theorem parse_core_fst (du : Nat → String → Except DuErr Date) (now : Nat)
    (t : String) (st st' : DateParserState) :
    (parse_core du now st t).1 = (parse_core du now st' t).1 := by
  unfold parse_core
  cases h1 : try_dateutil du now (clean_ordinal_suffix t) <;> simp only [h1]
  cases h2 : try_regex_pattern t <;> simp only [h2]
  cases h3 : try_dateutil du now t <;> simp only [h3]

theorem before_last_space_spec :
    ∀ cs : List Char,
      (before_last_space cs = none → '\x20' ∉ cs) ∧
      (∀ p, before_last_space cs = some p →
        ∃ rest, cs = p ++ '\x20' :: rest ∧ '\x20' ∉ rest) := by
  intro cs
  induction cs with
  | nil => exact ⟨fun _ => by simp, fun p hp => by simp [before_last_space] at hp⟩
  | cons c cs ih =>
    cases hb : before_last_space cs with
    | some p' =>
      have he : before_last_space (c :: cs) = some (c :: p') := by
        unfold before_last_space; rw [hb]
      constructor
      · intro h; rw [he] at h; simp at h
      · intro p hp
        rw [he] at hp
        cases hp
        rcases ih.2 p' hb with ⟨rest, hcs, hrest⟩
        exact ⟨rest, by rw [hcs]; rfl, hrest⟩
    | none =>
      by_cases hc : c = '\x20'
      · have he : before_last_space (c :: cs) = some [] := by
          unfold before_last_space; rw [hb]; simp [hc]
        constructor
        · intro h; rw [he] at h; simp at h
        · intro p hp
          rw [he] at hp
          cases hp
          exact ⟨cs, by rw [hc]; rfl, ih.1 hb⟩
      · have he : before_last_space (c :: cs) = none := by
          unfold before_last_space; rw [hb]; simp [hc]
        constructor
        · intro _ hmem
          rcases List.mem_cons.mp hmem with h | h
          · exact hc h.symm
          · exact (ih.1 hb) h
        · intro p hp; rw [he] at hp; simp at hp

/-- `rsplit(' ', 1)[0]`: either the list has no space and is returned
whole, or the result is the part strictly before the last space. -/
theorem rsplit_first_spec (cs : List Char) :
    (∃ rest, cs = rsplit_first cs ++ '\x20' :: rest ∧ '\x20' ∉ rest) ∨
      ('\x20' ∉ cs ∧ rsplit_first cs = cs) := by
  cases hb : before_last_space cs with
  | some p =>
    left
    rcases (before_last_space_spec cs).2 p hb with ⟨rest, hcs, hrest⟩
    exact ⟨rest, by rw [rsplit_first, hb]; exact hcs, hrest⟩
  | none =>
    right
    exact ⟨(before_last_space_spec cs).1 hb, by rw [rsplit_first, hb]; rfl⟩

/-! Lemmas about the `re.sub` scan, leading to idempotence of the ordinal
stripping. -/

/-- The one-step unfolding of the scan on a cons cell. -/
theorem cleanAux_succ (fuel : Nat) (prevW : Bool) (c : Char) (cs : List Char) :
    cleanAux (fuel + 1) prevW (c :: cs) =
      if prevW = false ∧ isDigitC c = true then
        match stripOrdinal ((c :: cs).dropWhile isDigitC) with
        | some rest => (c :: cs).takeWhile isDigitC ++ cleanAux fuel true rest
        | none => c :: cleanAux fuel true cs
      else c :: cleanAux fuel (isWordC c) cs := rfl

theorem cleanAux_nil (f : Nat) (p : Bool) : cleanAux f p [] = [] := by
  cases f <;> rfl

theorem digit_isWord {c : Char} (h : isDigitC c = true) : isWordC c = true := by
  simp [isWordC, h]

/-- The first character of the input survives as the first character of the
output, whatever branch is taken. -/
theorem cleanAux_cons_head (f : Nat) (p : Bool) (c : Char) (cs : List Char)
    (hf : 1 ≤ f) : ∃ t, cleanAux f p (c :: cs) = c :: t := by
  obtain ⟨f₀, rfl⟩ : ∃ f₀, f = f₀ + 1 := ⟨f - 1, by omega⟩
  rw [cleanAux_succ]
  by_cases hb : p = false ∧ isDigitC c = true
  · rw [if_pos hb]
    cases hso : stripOrdinal ((c :: cs).dropWhile isDigitC) with
    | some rest =>
      refine ⟨(cs.takeWhile isDigitC) ++ cleanAux f₀ true rest, ?_⟩
      simp [List.takeWhile_cons, hb.2]
    | none => exact ⟨cleanAux f₀ true cs, rfl⟩
  · rw [if_neg hb]; exact ⟨_, rfl⟩

theorem stripOrdinal_eq_some {l rest : List Char} (h : stripOrdinal l = some rest) :
    ∃ a b, l = a :: b :: rest ∧
      ((a = 's' ∧ b = 't') ∨ (a = 'n' ∧ b = 'd') ∨
        (a = 'r' ∧ b = 'd') ∨ (a = 't' ∧ b = 'h')) ∧
      isWordC (rest.headD '\x20') = false := by
  match l with
  | [] => simp [stripOrdinal] at h
  | [a] => simp [stripOrdinal] at h
  | a :: b :: r =>
    simp only [stripOrdinal] at h
    split at h
    case isTrue hc => cases h; exact ⟨a, b, rfl, hc.1, hc.2⟩
    case isFalse => simp at h

/-- No ordinal suffix can start with a non-word character. -/
theorem stripOrdinal_nonword {x : Char} (hw : isWordC x = false) (l : List Char) :
    stripOrdinal (x :: l) = none := by
  match l with
  | [] => rfl
  | y :: l' =>
    simp only [stripOrdinal]
    rw [if_neg]
    rintro ⟨hp, -⟩
    rcases hp with ⟨hx, -⟩ | ⟨hx, -⟩ | ⟨hx, -⟩ | ⟨hx, -⟩ <;> subst hx <;>
      exact absurd hw (by decide)

theorem cleanAux_length : ∀ (f : Nat) (p : Bool) (cs : List Char),
    (cleanAux f p cs).length ≤ cs.length := by
  intro f
  induction f with
  | zero => intro p cs; exact Nat.le_refl _
  | succ f ih =>
    intro p cs
    cases cs with
    | nil => simp [cleanAux_nil]
    | cons c cs =>
      rw [cleanAux_succ]
      by_cases hb : p = false ∧ isDigitC c = true
      · rw [if_pos hb]
        cases hso : stripOrdinal ((c :: cs).dropWhile isDigitC) with
        | some rest =>
          rcases stripOrdinal_eq_some hso with ⟨a, b, hdw, -, -⟩
          have hlen : ((c :: cs).takeWhile isDigitC).length +
              ((c :: cs).dropWhile isDigitC).length = cs.length + 1 := by
            have h2 := congrArg List.length (List.takeWhile_append_dropWhile
              isDigitC (c :: cs))
            rw [List.length_append] at h2
            simp only [List.length_cons] at h2
            exact h2
          rw [hdw] at hlen
          have := ih true rest
          simp only [List.length_append, List.length_cons] at hlen ⊢
          omega
        | none =>
          have := ih true cs
          simp only [List.length_cons]
          omega
      · rw [if_neg hb]
        have := ih (isWordC c) cs
        simp only [List.length_cons]
        omega

/-- Scanning with `prevW = true` passes over a block of word characters
unchanged (no word boundary can open inside it). -/
theorem cleanAux_words : ∀ (ws : List Char), (∀ x ∈ ws, isWordC x = true) →
    ∀ (t : List Char) (f : Nat), ws.length + t.length ≤ f →
      cleanAux f true (ws ++ t) = ws ++ cleanAux (f - ws.length) true t := by
  intro ws
  induction ws with
  | nil => intro _ t f _; simp
  | cons w ws ih =>
    intro hw t f hf
    simp only [List.length_cons] at hf
    obtain ⟨f₀, rfl⟩ : ∃ f₀, f = f₀ + 1 := ⟨f - 1, by omega⟩
    rw [List.cons_append, cleanAux_succ, if_neg (by simp), hw w (by simp),
      ih (fun x hx => hw x (by simp [hx])) t f₀ (by omega)]
    simp only [List.length_cons, List.cons_append]
    rw [show f₀ + 1 - (ws.length + 1) = f₀ - ws.length from by omega]

/-- If no ordinal suffix sits at the head of `r`, none sits at the head of
its scan either: the first two characters are preserved, and when they do
form a suffix pair the required trailing word character is preserved
too. -/
theorem stripOrdinal_cleanAux : ∀ (r : List Char) (f : Nat),
    stripOrdinal r = none → r.length ≤ f →
    stripOrdinal (cleanAux f true r) = none := by
  intro r f h hf
  match r with
  | [] => rw [cleanAux_nil]; rfl
  | [x] =>
    simp only [List.length_cons] at hf
    obtain ⟨f₀, rfl⟩ : ∃ f₀, f = f₀ + 1 := ⟨f - 1, by omega⟩
    rw [cleanAux_succ, if_neg (by simp), cleanAux_nil]
    rfl
  | x :: y :: r' =>
    simp only [List.length_cons] at hf
    obtain ⟨f₁, rfl⟩ : ∃ f₁, f = f₁ + 2 := ⟨f - 2, by omega⟩
    rw [show f₁ + 2 = (f₁ + 1) + 1 from rfl, cleanAux_succ, if_neg (by simp)]
    by_cases hp : (x = 's' ∧ y = 't') ∨ (x = 'n' ∧ y = 'd') ∨
        (x = 'r' ∧ y = 'd') ∨ (x = 't' ∧ y = 'h')
    · -- the pair is a suffix, so the boundary test must have failed on `r`
      have hx : isWordC x = true := by
        rcases hp with ⟨h1, -⟩ | ⟨h1, -⟩ | ⟨h1, -⟩ | ⟨h1, -⟩ <;> subst h1 <;> decide
      have hy : isWordC y = true := by
        rcases hp with ⟨-, h1⟩ | ⟨-, h1⟩ | ⟨-, h1⟩ | ⟨-, h1⟩ <;> subst h1 <;> decide
      have hbound : isWordC (r'.headD '\x20') = true := by
        by_contra hcon
        have hfalse : isWordC (r'.headD '\x20') = false := by
          cases hB : isWordC (r'.headD '\x20') with
          | false => rfl
          | true => exact absurd hB hcon
        have : stripOrdinal (x :: y :: r') = some r' := by
          simp only [stripOrdinal]
          rw [if_pos ⟨hp, hfalse⟩]
        rw [this] at h; cases h
      rw [hx, cleanAux_succ, if_neg (by simp), hy]
      cases r' with
      | nil => exact absurd hbound (by decide)
      | cons r₀ t' =>
        simp only [List.length_cons] at hf
        rcases cleanAux_cons_head f₁ true r₀ t' (by omega) with ⟨z, hz⟩
        rw [hz]
        simp only [stripOrdinal]
        rw [if_neg]
        rintro ⟨-, hb⟩
        simp only [List.headD_cons] at hb hbound
        rw [hbound] at hb
        cases hb
    · rcases cleanAux_cons_head (f₁ + 1) (isWordC x) y r' (by omega) with ⟨z, hz⟩
      rw [hz]
      simp only [stripOrdinal]
      rw [if_neg]
      rintro ⟨hpair, -⟩
      exact hp hpair

theorem dropWhile_append_all {p : Char → Bool} :
    ∀ {xs : List Char}, (∀ x ∈ xs, p x = true) →
      ∀ (t : List Char), (xs ++ t).dropWhile p = t.dropWhile p := by
  intro xs
  induction xs with
  | nil => intro _ t; rfl
  | cons x xs ih =>
    intro h t
    rw [List.cons_append, List.dropWhile_cons, if_pos (h x (by simp))]
    exact ih (fun y hy => h y (by simp [hy])) t

theorem dropWhile_head_false {p : Char → Bool} :
    ∀ {l : List Char} {x : Char} {t : List Char},
      l.dropWhile p = x :: t → p x = false := by
  intro l
  induction l with
  | nil => intro x t h; simp at h
  | cons c l ih =>
    intro x t h
    rw [List.dropWhile_cons] at h
    split at h
    · exact ih h
    · next hc =>
      cases h
      cases hpc : p c with
      | false => rfl
      | true => exact absurd hpc hc

/-- The branch equations of the scan, with the scrutinees resolved. -/
theorem cleanAux_step_some {fuel : Nat} {p : Bool} {c : Char}
    {cs rest : List Char} (hb : p = false ∧ isDigitC c = true)
    (hso : stripOrdinal ((c :: cs).dropWhile isDigitC) = some rest) :
    cleanAux (fuel + 1) p (c :: cs) =
      (c :: cs).takeWhile isDigitC ++ cleanAux fuel true rest := by
  rw [cleanAux_succ, if_pos hb, hso]

theorem cleanAux_step_none {fuel : Nat} {p : Bool} {c : Char}
    {cs : List Char} (hb : p = false ∧ isDigitC c = true)
    (hso : stripOrdinal ((c :: cs).dropWhile isDigitC) = none) :
    cleanAux (fuel + 1) p (c :: cs) = c :: cleanAux fuel true cs := by
  rw [cleanAux_succ, if_pos hb, hso]

theorem cleanAux_step_else {fuel : Nat} {p : Bool} {c : Char}
    {cs : List Char} (hb : ¬(p = false ∧ isDigitC c = true)) :
    cleanAux (fuel + 1) p (c :: cs) = c :: cleanAux fuel (isWordC c) cs := by
  rw [cleanAux_succ, if_neg hb]

/-- The output of the scan on `rest` (the tail behind a stripped suffix) is
digit-free at its head and carries no ordinal suffix at its head, whenever
`rest` itself has a non-word head (or is empty).  Packaged for the main
induction. -/
theorem cleanAux_after_facts {rest : List Char} {f : Nat}
    (hb : rest = [] ∨ isWordC (rest.headD '\x20') = false) (hf : rest.length ≤ f) :
    (cleanAux f true rest).takeWhile isDigitC = [] ∧
    (cleanAux f true rest).dropWhile isDigitC = cleanAux f true rest ∧
    stripOrdinal (cleanAux f true rest) = none := by
  cases rest with
  | nil => rw [cleanAux_nil]; exact ⟨rfl, rfl, rfl⟩
  | cons r₀ t' =>
    have hw : isWordC r₀ = false := by
      rcases hb with h | h
      · cases h
      · simpa using h
    have hd : isDigitC r₀ = false := by
      cases hdc : isDigitC r₀
      · rfl
      · rw [digit_isWord hdc] at hw; cases hw
    simp only [List.length_cons] at hf
    rcases cleanAux_cons_head f true r₀ t' (by omega) with ⟨z, hz⟩
    rw [hz]
    exact ⟨by rw [List.takeWhile_cons, if_neg (by simp [hd])],
      by rw [List.dropWhile_cons, if_neg (by simp [hd])],
      stripOrdinal_nonword hw z⟩

/-- Idempotence of the scan: rescanning an already-scanned string changes
nothing.  The induction is on an upper bound `n` for the input length. -/
theorem cleanAux_idem : ∀ (n : Nat) (cs : List Char) (p : Bool) (f g : Nat),
    cs.length ≤ n → cs.length ≤ f → (cleanAux f p cs).length ≤ g →
    cleanAux g p (cleanAux f p cs) = cleanAux f p cs := by
  intro n
  induction n with
  | zero =>
    intro cs p f g hn _ _
    have : cs = [] := List.length_eq_zero.mp (Nat.le_zero.mp hn)
    subst this
    simp only [cleanAux_nil]
  | succ n ih =>
    intro cs p f g hn hf hg
    cases cs with
    | nil => simp only [cleanAux_nil]
    | cons c cs' =>
      simp only [List.length_cons] at hn hf
      obtain ⟨f₀, rfl⟩ : ∃ f₀, f = f₀ + 1 := ⟨f - 1, by omega⟩
      by_cases hb : p = false ∧ isDigitC c = true
      · cases hso : stripOrdinal ((c :: cs').dropWhile isDigitC) with
        | some rest =>
          -- the suffix was stripped: the output is `c :: tw' ++ T`
          rw [cleanAux_step_some hb hso] at hg ⊢
          rcases stripOrdinal_eq_some hso with ⟨a, b, hdw, -, hbrest⟩
          have htw : (c :: cs').takeWhile isDigitC = c :: cs'.takeWhile isDigitC := by
            rw [List.takeWhile_cons, if_pos hb.2]
          have htwd : ∀ x ∈ cs'.takeWhile isDigitC, isDigitC x = true :=
            fun x hx => List.mem_takeWhile_imp hx
          have htwdw : ∀ x ∈ cs'.takeWhile isDigitC, isWordC x = true :=
            fun x hx => digit_isWord (htwd x hx)
          have hlen : (cs'.takeWhile isDigitC).length + 1 + (rest.length + 2) =
              cs'.length + 1 := by
            have h2 := congrArg List.length (List.takeWhile_append_dropWhile
              isDigitC (c :: cs'))
            rw [List.length_append, htw, hdw] at h2
            simp only [List.length_cons] at h2
            omega
          have hrestf : rest.length ≤ f₀ := by omega
          have hTfacts := cleanAux_after_facts
            (by
              cases rest with
              | nil => exact Or.inl rfl
              | cons r₀ t' => exact Or.inr hbrest)
            hrestf
          rcases hTfacts with ⟨-, hTd, hTs⟩
          rw [htw] at hg ⊢
          simp only [List.cons_append, List.length_cons, List.length_append] at hg
          obtain ⟨g₀, rfl⟩ : ∃ g₀, g = g₀ + 1 := ⟨g - 1, by omega⟩
          rw [List.cons_append]
          rw [cleanAux_step_none hb
            (by rw [List.dropWhile_cons, if_pos hb.2,
              dropWhile_append_all htwd, hTd]; exact hTs)]
          rw [cleanAux_words (cs'.takeWhile isDigitC) htwdw (cleanAux f₀ true rest)
            g₀ (by omega)]
          rw [ih rest true f₀ (g₀ - (cs'.takeWhile isDigitC).length)
            (by omega) hrestf (by omega)]
        | none =>
          -- no suffix after the digit run: the output is `c :: ds₁ ++ V`
          rw [cleanAux_step_none hb hso] at hg ⊢
          have hso' : stripOrdinal (cs'.dropWhile isDigitC) = none := by
            rw [List.dropWhile_cons, if_pos hb.2] at hso
            exact hso
          have htwd : ∀ x ∈ cs'.takeWhile isDigitC, isDigitC x = true :=
            fun x hx => List.mem_takeWhile_imp hx
          have htwdw : ∀ x ∈ cs'.takeWhile isDigitC, isWordC x = true :=
            fun x hx => digit_isWord (htwd x hx)
          have hsplit : cs'.takeWhile isDigitC ++ cs'.dropWhile isDigitC = cs' :=
            List.takeWhile_append_dropWhile isDigitC cs'
          have hlen : (cs'.takeWhile isDigitC).length +
              (cs'.dropWhile isDigitC).length = cs'.length := by
            have h2 := congrArg List.length hsplit
            rw [List.length_append] at h2
            exact h2
          have hU : cleanAux f₀ true cs' =
              cs'.takeWhile isDigitC ++
                cleanAux (f₀ - (cs'.takeWhile isDigitC).length) true
                  (cs'.dropWhile isDigitC) := by
            conv_lhs => rw [← hsplit]
            exact cleanAux_words _ htwdw _ f₀ (by omega)
          -- the scanned remainder `V` keeps its non-digit head
          have hVd : (cleanAux (f₀ - (cs'.takeWhile isDigitC).length) true
              (cs'.dropWhile isDigitC)).dropWhile isDigitC =
              cleanAux (f₀ - (cs'.takeWhile isDigitC).length) true
                (cs'.dropWhile isDigitC) := by
            cases hdw : cs'.dropWhile isDigitC with
            | nil => rw [cleanAux_nil]; rfl
            | cons r₀ t' =>
              have hr₀ := dropWhile_head_false hdw
              have hlt' : (r₀ :: t').length ≤ f₀ - (cs'.takeWhile isDigitC).length := by
                rw [← hdw]; omega
              simp only [List.length_cons] at hlt'
              rcases cleanAux_cons_head (f₀ - (cs'.takeWhile isDigitC).length)
                true r₀ t' (by omega) with ⟨z, hz⟩
              rw [hz, List.dropWhile_cons, if_neg (by simp [hr₀])]
          have hVs : stripOrdinal (cleanAux (f₀ - (cs'.takeWhile isDigitC).length)
              true (cs'.dropWhile isDigitC)) = none :=
            stripOrdinal_cleanAux _ _ hso' (by omega)
          have hUlen := congrArg List.length hU
          rw [List.length_append] at hUlen
          simp only [List.length_cons] at hg
          obtain ⟨g₀, rfl⟩ : ∃ g₀, g = g₀ + 1 := ⟨g - 1, by omega⟩
          rw [cleanAux_step_none hb
            (by rw [List.dropWhile_cons, if_pos hb.2, hU,
              dropWhile_append_all htwd, hVd]; exact hVs)]
          rw [hU, cleanAux_words (cs'.takeWhile isDigitC) htwdw _ g₀ (by omega)]
          rw [ih (cs'.dropWhile isDigitC) true
            (f₀ - (cs'.takeWhile isDigitC).length)
            (g₀ - (cs'.takeWhile isDigitC).length)
            (by omega) (by omega) (by omega)]
      · rw [cleanAux_step_else hb] at hg ⊢
        simp only [List.length_cons] at hg
        obtain ⟨g₀, rfl⟩ : ∃ g₀, g = g₀ + 1 := ⟨g - 1, by omega⟩
        rw [cleanAux_step_else hb]
        congr 1
        exact ih cs' (isWordC c) f₀ g₀ (by omega) (by omega) (by omega)

/-! Lemmas for the strict-pattern titles (claim C1). -/

theorem takeWhile_append_all {p : Char → Bool} :
    ∀ {xs : List Char}, (∀ x ∈ xs, p x = true) →
      ∀ (t : List Char), (xs ++ t).takeWhile p = xs ++ t.takeWhile p := by
  intro xs
  induction xs with
  | nil => intro _ t; rfl
  | cons x xs ih =>
    intro h t
    rw [List.cons_append, List.takeWhile_cons, if_pos (h x (by simp)),
      ih (fun y hy => h y (by simp [hy])) t]
    rfl

theorem word_not_space {c : Char} (h : isWordC c = true) : isSpaceC c = false := by
  cases hs : isSpaceC c with
  | false => rfl
  | true =>
    exfalso
    simp only [isSpaceC, Bool.or_eq_true, decide_eq_true_eq] at hs
    rcases hs with ((((h1 | h1) | h1) | h1) | h1) | h1 <;> subst h1 <;>
      exact absurd h (by decide)

theorem digit_not_space {c : Char} (h : isDigitC c = true) : isSpaceC c = false :=
  word_not_space (digit_isWord h)

/-- The first ordinal-suffix character is a letter, not a digit. -/
theorem sufPair_first_not_digit {a b : Char} (h : sufPair a b = true) :
    isDigitC a = false := by
  simp only [sufPair, decide_eq_true_eq] at h
  rcases h with ⟨h1, -⟩ | ⟨h1, -⟩ | ⟨h1, -⟩ | ⟨h1, -⟩ <;>
    rcases h1 with h1 | h1 <;> subst h1 <;> decide

theorem daysInMonth_le (y m : Nat) : daysInMonth y m ≤ 31 := by
  unfold daysInMonth
  split_ifs <;> omega

theorem weekdayName_props (w : Nat) :
    weekdayName w ≠ [] ∧ (∀ c ∈ weekdayName w, isWordC c = true) ∧
      ¬(weekdayName w).length < 4 ∧ endsDay (weekdayName w) = true := by
  match w with
  | 0 => decide
  | 1 => decide
  | 2 => decide
  | 3 => decide
  | 4 => decide
  | 5 => decide
  | n + 6 =>
    rw [show weekdayName (n + 6) = (("Sunday" : String)).data from rfl]
    decide

theorem monthName_props (m : Nat) (hm1 : 1 ≤ m) (hm2 : m ≤ 12) :
    monthName m ≠ [] ∧ (∀ c ∈ monthName m, isWordC c = true) ∧
      parse_B (monthName m) = some m := by
  interval_cases m <;> decide

theorem dayRepr_props (d : Nat) (hd1 : 1 ≤ d) (hd2 : d ≤ 31) :
    (Nat.repr d).data ≠ [] ∧ (∀ c ∈ (Nat.repr d).data, isDigitC c = true) ∧
      parse_d ((Nat.repr d).data) = some d := by
  interval_cases d <;> decide

theorem ordinalSuffix_pair (d : Nat) :
    ∃ a b, ordinalSuffix d = [a, b] ∧ sufPair a b = true := by
  unfold ordinalSuffix
  split_ifs <;> exact ⟨_, _, rfl, by decide⟩

theorem digitChar_isDigit (n : Nat) : isDigitC (digitChar n) = true := by
  have h : n % 10 < 10 := Nat.mod_lt _ (by omega)
  unfold digitChar
  generalize hk : n % 10 = k at h ⊢
  interval_cases k <;> decide

theorem digitChar_val (n : Nat) : (digitChar n).toNat - 48 = n % 10 := by
  have h : n % 10 < 10 := Nat.mod_lt _ (by omega)
  unfold digitChar
  generalize hk : n % 10 = k at h ⊢
  interval_cases k <;> decide

theorem pad4_props (y : Nat) (hy : y ≤ 9999) :
    (∀ c ∈ pad4 y, isDigitC c = true) ∧ (pad4 y).length = 4 ∧
      parse_Y (pad4 y) = some y := by
  have hall : ∀ c ∈ pad4 y, isDigitC c = true := by
    intro c hc
    simp only [pad4, List.mem_cons, List.not_mem_nil, or_false] at hc
    rcases hc with h | h | h | h <;> subst h <;> exact digitChar_isDigit _
  refine ⟨hall, rfl, ?_⟩
  unfold parse_Y
  rw [if_pos ⟨rfl, by simp only [List.all_eq_true]; exact hall⟩]
  congr 1
  have e : natOfDigits (pad4 y) =
      ((y / 1000 % 10 * 10 + y / 100 % 10) * 10 + y / 10 % 10) * 10 + y % 10 := by
    simp only [pad4, natOfDigits, List.foldl_cons, List.foldl_nil, digitChar_val]
    omega
  rw [e]
  omega

theorem notake {p : Char → Bool} {c : Char} {t : List Char} (hc : p c = false) :
    (c :: t).takeWhile p = [] := by
  rw [List.takeWhile_cons, if_neg (by simp [hc])]

theorem nodrop {p : Char → Bool} {c : Char} {t : List Char} (hc : p c = false) :
    (c :: t).dropWhile p = c :: t := by
  rw [List.dropWhile_cons, if_neg (by simp [hc])]

theorem run_take {p : Char → Bool} {xs t : List Char}
    (hxs : ∀ x ∈ xs, p x = true) (ht : t.takeWhile p = []) :
    (xs ++ t).takeWhile p = xs := by
  rw [takeWhile_append_all hxs, ht, List.append_nil]

theorem run_drop {p : Char → Bool} {xs t : List Char}
    (hxs : ∀ x ∈ xs, p x = true) (ht : t.dropWhile p = t) :
    (xs ++ t).dropWhile p = t := by
  rw [dropWhile_append_all hxs, ht]

theorem nodrop_append {p : Char → Bool} {c : Char} {xs t : List Char}
    (hc : p c = false) : ((c :: xs) ++ t).dropWhile p = (c :: xs) ++ t := by
  rw [List.cons_append, List.dropWhile_cons, if_neg (by simp [hc]),
    ← List.cons_append]

/-- The pattern matches at position 0 of a strict title, capturing the day
digits, the month word and the four year digits. -/
theorem matchAt_strict {wd day mon yr : List Char} {a b : Char}
    (hwd1 : ∀ c ∈ wd, isWordC c = true) (hwd2 : ¬wd.length < 4)
    (hwd3 : endsDay wd = true)
    (hday : day ≠ []) (hdayd : ∀ c ∈ day, isDigitC c = true)
    (hsuf : sufPair a b = true)
    (hmon : mon ≠ []) (hmonw : ∀ c ∈ mon, isWordC c = true)
    (hyr4 : yr.length = 4) (hyrd : ∀ c ∈ yr, isDigitC c = true) :
    matchAt (wd ++ '\x20' :: day ++ a :: b :: '\x20' :: mon ++ ',' :: '\x20' :: yr)
      = some (day, mon, yr) := by
  obtain ⟨d₀, day', rfl⟩ : ∃ d₀ day', day = d₀ :: day' := by
    cases day with
    | nil => exact absurd rfl hday
    | cons x xs => exact ⟨x, xs, rfl⟩
  obtain ⟨m₀, mon', rfl⟩ : ∃ m₀ mon', mon = m₀ :: mon' := by
    cases mon with
    | nil => exact absurd rfl hmon
    | cons x xs => exact ⟨x, xs, rfl⟩
  obtain ⟨y₁, yr', rfl⟩ : ∃ y₁ yr', yr = y₁ :: yr' := by
    cases yr with
    | nil => simp at hyr4
    | cons x xs => exact ⟨x, xs, rfl⟩
  have hd₀ : isDigitC d₀ = true := hdayd _ (by simp)
  have hm₀ : isWordC m₀ = true := hmonw _ (by simp)
  have hy₁ : isDigitC y₁ = true := hyrd _ (by simp)
  have hday' : ∀ c ∈ day', isDigitC c = true := fun c hc => hdayd c (by simp [hc])
  have hmon' : ∀ c ∈ mon', isWordC c = true := fun c hc => hmonw c (by simp [hc])
  have E1 : (wd ++ '\x20' :: d₀ :: (day' ++ a :: b :: '\x20' :: m₀ ::
      (mon' ++ ',' :: '\x20' :: y₁ :: yr'))).takeWhile isWordC = wd :=
    run_take hwd1 (notake (show isWordC '\x20' = false from rfl))
  have E2 : (wd ++ '\x20' :: d₀ :: (day' ++ a :: b :: '\x20' :: m₀ ::
      (mon' ++ ',' :: '\x20' :: y₁ :: yr'))).dropWhile isWordC =
      '\x20' :: d₀ :: (day' ++ a :: b :: '\x20' :: m₀ ::
        (mon' ++ ',' :: '\x20' :: y₁ :: yr')) :=
    run_drop hwd1 (nodrop (show isWordC '\x20' = false from rfl))
  have E3 : (d₀ :: (day' ++ a :: b :: '\x20' :: m₀ ::
      (mon' ++ ',' :: '\x20' :: y₁ :: yr'))).dropWhile isSpaceC =
      d₀ :: (day' ++ a :: b :: '\x20' :: m₀ ::
        (mon' ++ ',' :: '\x20' :: y₁ :: yr')) :=
    nodrop (digit_not_space hd₀)
  have E4 : (d₀ :: (day' ++ a :: b :: '\x20' :: m₀ ::
      (mon' ++ ',' :: '\x20' :: y₁ :: yr'))).takeWhile isDigitC = d₀ :: day' := by
    rw [List.takeWhile_cons, if_pos hd₀,
      run_take hday' (notake (sufPair_first_not_digit hsuf))]
  have E5 : (d₀ :: (day' ++ a :: b :: '\x20' :: m₀ ::
      (mon' ++ ',' :: '\x20' :: y₁ :: yr'))).dropWhile isDigitC =
      a :: b :: '\x20' :: m₀ :: (mon' ++ ',' :: '\x20' :: y₁ :: yr') := by
    rw [List.dropWhile_cons, if_pos hd₀, dropWhile_append_all hday',
      nodrop (sufPair_first_not_digit hsuf)]
  have E6 : (m₀ :: (mon' ++ ',' :: '\x20' :: y₁ :: yr')).dropWhile isSpaceC =
      m₀ :: (mon' ++ ',' :: '\x20' :: y₁ :: yr') :=
    nodrop (word_not_space hm₀)
  have E7 : (m₀ :: (mon' ++ ',' :: '\x20' :: y₁ :: yr')).takeWhile isWordC =
      m₀ :: mon' := by
    rw [List.takeWhile_cons, if_pos hm₀,
      run_take hmon' (notake (show isWordC ',' = false from rfl))]
  have E8 : (m₀ :: (mon' ++ ',' :: '\x20' :: y₁ :: yr')).dropWhile isWordC =
      ',' :: '\x20' :: y₁ :: yr' := by
    rw [List.dropWhile_cons, if_pos hm₀, dropWhile_append_all hmon',
      nodrop (show isWordC ',' = false from rfl)]
  have E9 : ((y₁ :: yr')).dropWhile isSpaceC = y₁ :: yr' :=
    nodrop (digit_not_space hy₁)
  have E10 : ((y₁ :: yr')).take 4 = y₁ :: yr' :=
    List.take_of_length_le (le_of_eq hyr4)
  have E11 : ((y₁ :: yr')).all isDigitC = true := by
    simp only [List.all_eq_true]
    exact hyrd
  simp [matchAt, E1, E2, E3, E4, E5, E6, E7, E8, E9, E10, E11, hwd2, hwd3,
    hsuf, hyr4,
    show isSpaceC '\x20' = true from rfl]

theorem searchPattern_eq_of_matchAt {cs : List Char}
    {g : List Char × List Char × List Char} (hne : cs ≠ [])
    (h : matchAt cs = some g) : searchPattern cs = some g := by
  cases cs with
  | nil => exact absurd rfl hne
  | cons c cs' => simp only [searchPattern, h]

theorem try_regex_eq {t : String} {day mon yr : List Char}
    (h : searchPattern t.data = some (day, mon, yr)) :
    try_regex_pattern t =
      (match strptime_d_B_Y day mon yr with
       | some dt => some dt
       | none => strptime_d_b_Y day mon yr) := by
  unfold try_regex_pattern
  rw [h]

/-- The strict-pattern stage parses a strict title to exactly its date. -/
theorem try_regex_strict (w d m y : Nat) (hm1 : 1 ≤ m) (hm2 : m ≤ 12)
    (hd1 : 1 ≤ d) (hd2 : d ≤ daysInMonth y m) (hy1 : 1 ≤ y) (hy2 : y ≤ 9999) :
    try_regex_pattern (mkStrictTitle w d m y) = some ⟨y, m, d⟩ := by
  obtain ⟨a, b, hsufeq, hsuf⟩ := ordinalSuffix_pair d
  obtain ⟨hw1, hw2, hw3, hw4⟩ := weekdayName_props w
  obtain ⟨hm3, hm4, hm5⟩ := monthName_props m hm1 hm2
  have hd31 : d ≤ 31 := le_trans hd2 (daysInMonth_le y m)
  obtain ⟨hdne, hdd, hdp⟩ := dayRepr_props d hd1 hd31
  obtain ⟨hyd, hyl, hyp⟩ := pad4_props y hy2
  have hmatch := matchAt_strict hw2 hw3 hw4 hdne hdd hsuf hm3 hm4 hyl hyd
  have hdata : (mkStrictTitle w d m y).data =
      weekdayName w ++ '\x20' :: (Nat.repr d).data ++ a :: b :: '\x20' ::
        monthName m ++ ',' :: '\x20' :: pad4 y := by
    show weekdayName w ++ '\x20' :: (Nat.repr d).data ++ ordinalSuffix d ++
        '\x20' :: monthName m ++ ',' :: '\x20' :: pad4 y = _
    rw [hsufeq]
    simp
  have hsearch : searchPattern (mkStrictTitle w d m y).data =
      some ((Nat.repr d).data, monthName m, pad4 y) := by
    rw [hdata]
    exact searchPattern_eq_of_matchAt
      (by
        cases hwd : weekdayName w with
        | nil => exact absurd hwd hw1
        | cons w₀ wrest => simp [hwd])
      hmatch
  rw [try_regex_eq hsearch]
  have hstr : strptime_d_B_Y ((Nat.repr d).data) (monthName m) (pad4 y) =
      some ⟨y, m, d⟩ := by
    unfold strptime_d_B_Y
    rw [hdp, hm5, hyp]
    show (if 1 ≤ y ∧ y ≤ 9999 ∧ d ≤ daysInMonth y m then
        some (⟨y, m, d⟩ : Date) else none) = some ⟨y, m, d⟩
    rw [if_pos ⟨hy1, hy2, hd2⟩]
  rw [hstr]

/-- The state is only ever extended, by at most the current title. -/
theorem parse_core_append_only (du : Nat → String → Except DuErr Date)
    (now : Nat) (t : String) (st : DateParserState) :
    (parse_core du now st t).2.failed_parses = st.failed_parses ∨
      (parse_core du now st t).2.failed_parses = st.failed_parses ++ [t] := by
  unfold parse_core
  cases h1 : try_dateutil du now (clean_ordinal_suffix t) <;> simp only [h1]
  · cases h2 : try_regex_pattern t <;> simp only [h2]
    · cases h3 : try_dateutil du now t <;> simp only [h3]
      · simp
      · simp
    · simp
  · simp

end DMP

namespace DMP

/-! ## The claims -/

/-- C1: for every title exactly matching the strict pattern
`"<Weekday> <N><ordinal> <Month>, <YYYY>"` with calendar-valid day, month
and year, `parse_title_date` returns exactly that calendar date.  The
external fuzzy parser is constrained only by its interface contract: on the
ordinal-normalized title — whose sole date content is that date — it either
declines or returns the date itself; in the declining case the
strict-pattern stage produces the date.  The "in particular" examples of the
claim are checked in the witness. -/
theorem C1_strict_pattern_exact (du : Nat → String → Except DuErr Date)
    (now : Nat) (st : DateParserState) (w d m y : Nat)
    (hm1 : 1 ≤ m) (hm2 : m ≤ 12) (hd1 : 1 ≤ d) (hd2 : d ≤ daysInMonth y m)
    (hy1 : 1 ≤ y) (hy2 : y ≤ 9999)
    (hdu : try_dateutil du now (clean_ordinal_suffix (mkStrictTitle w d m y)) =
        none ∨
      try_dateutil du now (clean_ordinal_suffix (mkStrictTitle w d m y)) =
        some ⟨y, m, d⟩) :
    parse_title_date du now st (.str (mkStrictTitle w d m y)) =
      .ok (some ⟨y, m, d⟩, st) := by
  have hne : mkStrictTitle w d m y ≠ "" := by
    intro h
    have hdc := congrArg String.data h
    obtain ⟨hw1, -, -, -⟩ := weekdayName_props w
    cases hwd : weekdayName w with
    | nil => exact absurd hwd hw1
    | cons w₀ wrest =>
      rw [show (mkStrictTitle w d m y).data = weekdayName w ++ '\x20' ::
        (Nat.repr d).data ++ ordinalSuffix d ++ '\x20' :: monthName m ++
        ',' :: '\x20' :: pad4 y from rfl, hwd] at hdc
      simp at hdc
  simp only [parse_title_date]
  rw [if_neg hne]
  unfold parse_core
  rcases hdu with h | h <;> rw [h]
  rw [try_regex_strict w d m y hm1 hm2 hd1 hd2 hy1 hy2]

/-- C1 (witness): the two examples named by the claim, at the declining
fuzzy parser. -/
theorem C1_strict_pattern_exact_witness :
    mkStrictTitle 5 30 12 2023 = "Saturday 30th December, 2023" ∧
    mkStrictTitle 2 1 1 2023 = "Wednesday 1st January, 2023" ∧
    parse_title_date duNone 0 ⟨[]⟩ (.str (mkStrictTitle 5 30 12 2023)) =
      .ok (some ⟨2023, 12, 30⟩, ⟨[]⟩) ∧
    parse_title_date duNone 0 ⟨[]⟩ (.str (mkStrictTitle 2 1 1 2023)) =
      .ok (some ⟨2023, 1, 1⟩, ⟨[]⟩) :=
  ⟨by decide, by decide,
    C1_strict_pattern_exact duNone 0 ⟨[]⟩ 5 30 12 2023 (by decide) (by decide)
      (by decide) (by decide) (by decide) (by decide) (Or.inl rfl),
    C1_strict_pattern_exact duNone 0 ⟨[]⟩ 2 1 1 2023 (by decide) (by decide)
      (by decide) (by decide) (by decide) (by decide) (Or.inl rfl)⟩

/-- C2 (amended): for `None`, for every string title, and for falsy
non-strings, `parse_title_date` never raises — every parser error inside
the three fallback strategies is swallowed and the caller receives an
outcome.  (As stated the claim also covered truthy non-string inputs; see
the counterexample.) -/
theorem C2_no_exception_amended (du : Nat → String → Except DuErr Date)
    (now : Nat) (st : DateParserState) (s : String) :
    (∃ r, parse_title_date du now st (.str s) = .ok r) ∧
    (∃ r, parse_title_date du now st .none_ = .ok r) ∧
    (∃ r, parse_title_date du now st (.int_ 0) = .ok r) := by
  refine ⟨?_, ⟨(none, st), rfl⟩, ⟨(none, st), by simp [parse_title_date]⟩⟩
  by_cases h : s = ""
  · exact ⟨(none, st), by simp [parse_title_date, h]⟩
  · exact ⟨parse_core du now st s, by simp [parse_title_date, h]⟩

/-- C2 (counterexample): a truthy non-string title passes the
`if not title` guard and reaches `re.sub`, which raises an uncaught
`TypeError` — so as stated ("including … non-string inputs") the claim
fails. -/
theorem C2_nonstring_raises :
    parse_title_date duNone 0 ⟨[]⟩ (.int_ 5) = .error .typeError := rfl

/-- C3 (amended): `get_success_rate` is `0` at `total_attempts = 0` and
`100 * (total - failures) / total` otherwise; the value lies in `[0, 100]`
whenever the recorded failure count is at most `total_attempts` (in
particular it is `100` with zero failures, and `70` for `10` attempts with
`3` failures) — but it is negative, outside `[0, 100]`, when the failure
count exceeds `total_attempts` (see the counterexample). -/
theorem C3_success_rate_amended (st : DateParserState) (t : ℤ) :
    get_success_rate st 0 = 0 ∧
    (t ≠ 0 → get_success_rate st t =
      ((t : ℚ) - (st.failed_parses.length : ℚ)) / (t : ℚ) * 100) ∧
    (0 < t → (st.failed_parses.length : ℤ) ≤ t →
      0 ≤ get_success_rate st t ∧ get_success_rate st t ≤ 100) ∧
    (0 < t → st.failed_parses.length = 0 → get_success_rate st t = 100) ∧
    get_success_rate ⟨["a", "b", "c"]⟩ 10 = 70 := by
  refine ⟨by simp [get_success_rate], fun ht => by simp [get_success_rate, ht], ?_, ?_, ?_⟩
  · intro ht hf
    have ht' : (t : ℚ) > 0 := by exact_mod_cast ht
    have hf' : (st.failed_parses.length : ℚ) ≤ (t : ℚ) := by exact_mod_cast hf
    have hfn : (0 : ℚ) ≤ (st.failed_parses.length : ℚ) := by positivity
    constructor
    · rw [get_success_rate, if_neg (by omega)]
      have : (0 : ℚ) ≤ ((t : ℚ) - (st.failed_parses.length : ℚ)) / (t : ℚ) :=
        div_nonneg (by linarith) (le_of_lt ht')
      linarith
    · rw [get_success_rate, if_neg (by omega)]
      have : ((t : ℚ) - (st.failed_parses.length : ℚ)) / (t : ℚ) ≤ 1 :=
        (div_le_one ht').mpr (by linarith)
      linarith
  · intro ht hf
    rw [get_success_rate, if_neg (by omega), hf]
    have ht' : (t : ℚ) ≠ 0 := by exact_mod_cast (by omega : t ≠ 0)
    field_simp
  · norm_num [get_success_rate]

/-- C3 (witness): the bounds clause applied at ten attempts and three
recorded failures. -/
theorem C3_success_rate_witness :
    0 ≤ get_success_rate ⟨["a", "b", "c"]⟩ 10 ∧
      get_success_rate ⟨["a", "b", "c"]⟩ 10 ≤ 100 :=
  (C3_success_rate_amended ⟨["a", "b", "c"]⟩ 10).2.2.1 (by norm_num) (by norm_num)

/-- C3 (counterexample): with three recorded failures, a single attempt
yields `-200`, outside the claimed interval `[0, 100]`. -/
theorem C3_success_rate_counterexample :
    get_success_rate ⟨["a", "b", "c"]⟩ 1 = -200 ∧
      get_success_rate ⟨["a", "b", "c"]⟩ 1 < 0 := by
  norm_num [get_success_rate]

/-- C4 (amended): at a fixed current time, date parsing of a given title
string is deterministic — the outcome is independent of the engine state,
whose only evolution is the append-only recording of the failed title. -/
theorem C4_deterministic_amended (du : Nat → String → Except DuErr Date)
    (now : Nat) (s : String) (st st' : DateParserState) :
    (parse_title_date du now st (.str s)).map Prod.fst =
      (parse_title_date du now st' (.str s)).map Prod.fst ∧
    ((parse_core du now st s).2.failed_parses = st.failed_parses ∨
      (parse_core du now st s).2.failed_parses = st.failed_parses ++ [s]) := by
  refine ⟨?_, parse_core_append_only du now s st⟩
  by_cases h : s = ""
  · simp [parse_title_date, h, Except.map]
  · simp [parse_title_date, h, Except.map, parse_core_fst du now s st st']

/-- C4 (counterexample): the fuzzy fallback consults the current date for
missing components (spec §4, §9), so the same title in the same engine
state parses to different outcomes at different times — the claim's "at
any times" fails. -/
theorem C4_time_dependence_counterexample :
    parse_title_date du_yearless 2023 ⟨[]⟩ (.str ("5 March")) =
      .ok (some ⟨2023, 3, 5⟩, ⟨[]⟩) ∧
    parse_title_date du_yearless 2024 ⟨[]⟩ (.str ("5 March")) =
      .ok (some ⟨2024, 3, 5⟩, ⟨[]⟩) ∧
    (⟨2023, 3, 5⟩ : Date) ≠ (⟨2024, 3, 5⟩ : Date) :=
  ⟨rfl, rfl, by decide⟩

/-- C5 (amended): the post identifier is derived deterministically from
the inferred date when present, else from the raw published timestamp when
nonempty, else from an MD5 hash of the post's TITLE (not of its content;
see the counterexample). -/
theorem C5_post_id_amended (p : BlogPost) :
    (∀ d, p.parsed_date = some d → generate_post_id p = "post-" ++ isoformat d) ∧
    (p.parsed_date = none → p.published_iso ≠ "" →
      generate_post_id p =
        "post-" ++ ⟨p.published_iso.data.takeWhile (fun c => c ≠ 'T')⟩) ∧
    (p.parsed_date = none → p.published_iso = "" →
      generate_post_id p = "post-" ++ ⟨(md5_hexdigest p.title).data.take 8⟩) ∧
    (∀ q : BlogPost, p.parsed_date = none → p.published_iso = "" →
      q.parsed_date = none → q.published_iso = "" → q.title = p.title →
      generate_post_id q = generate_post_id p) := by
  refine ⟨fun d hd => by simp [generate_post_id, hd], ?_, ?_, ?_⟩
  · intro h1 h2; simp [generate_post_id, h1, h2]
  · intro h1 h2; simp [generate_post_id, h1, h2]
  · intro q h1 h2 h3 h4 h5
    simp [generate_post_id, h1, h2, h3, h4, h5]

/-- C5 (witness): the date branch at a concrete post. -/
theorem C5_post_id_witness :
    generate_post_id postDated = "post-" ++ isoformat ⟨2023, 12, 30⟩ :=
  (C5_post_id_amended postDated).1 ⟨2023, 12, 30⟩ rfl

set_option maxRecDepth 100000 in
/-- C5 (counterexample): two posts with neither date nor timestamp and
identical content receive different identifiers (the hash is taken of the
title, not of the content), and the identifier is not the content hash. -/
theorem C5_post_id_counterexample :
    postA.content_html = postB.content_html ∧
    postA.parsed_date = none ∧ postA.published_iso = "" ∧
    postB.parsed_date = none ∧ postB.published_iso = "" ∧
    generate_post_id postA ≠ generate_post_id postB ∧
    generate_post_id postA ≠
      "post-" ++ ⟨(md5_hexdigest postA.content_html).data.take 8⟩ := by
  refine ⟨rfl, rfl, rfl, rfl, rfl, ?_, ?_⟩ <;> decide

/-- C6: ordinal-suffix stripping is idempotent — applying it twice to any
string equals applying it once — and scoped to whole numeral-plus-suffix
tokens: `"31st"` becomes `"31"`, while `"3rdParty"`, where no word boundary
follows the suffix, is unaltered. -/
theorem C6_ordinal_strip_idempotent :
    (∀ s : String,
      clean_ordinal_suffix (clean_ordinal_suffix s) = clean_ordinal_suffix s) ∧
    clean_ordinal_suffix ("31st") = "31" ∧
    clean_ordinal_suffix ("3rdParty") = "3rdParty" := by
  refine ⟨?_, by decide, by decide⟩
  intro s
  exact congrArg String.mk
    (cleanAux_idem s.data.length s.data false s.data.length
      (cleanAux s.data.length false s.data).length
      (Nat.le_refl _) (Nat.le_refl _) (Nat.le_refl _))

/-- C7: every date the engine returns is calendar-valid — the fuzzy
parser only produces constructed `datetime.date` values (hypothesis), and
the strict-pattern stage validates through `strptime`; moreover, on a
strict-pattern title whose day is out of range for its month
(`"Monday 31st April, 2023"`), the format parse rejects it and the engine
falls through to the failure outcome instead of returning an invalid
date. -/
theorem C7_valid_dates :
    (∀ (du : Nat → String → Except DuErr Date) (now : Nat)
       (st : DateParserState) (title : String) (d : Date) (st' : DateParserState),
       (∀ n s x, du n s = .ok x → x.Valid) →
       parse_core du now st title = (some d, st') → d.Valid) ∧
    parse_core duNone 0 ⟨[]⟩ ("Monday 31st April, 2023") =
      (none, ⟨["Monday 31st April, 2023"]⟩) := by
  constructor
  · intro du now st title d st' hdu hp
    unfold parse_core at hp
    cases h1 : try_dateutil du now (clean_ordinal_suffix title) <;> rw [h1] at hp
    · cases h2 : try_regex_pattern title <;> rw [h2] at hp
      · cases h3 : try_dateutil du now title <;> rw [h3] at hp
        · simp at hp
        · cases hp; exact hdu _ _ _ (try_dateutil_some h3)
      · cases hp; exact try_regex_pattern_valid h2
    · cases hp; exact hdu _ _ _ (try_dateutil_some h1)
  · decide

/-- C7 (witness): the validity clause applied to the declining fuzzy
parser and a genuine strict-pattern title. -/
theorem C7_valid_dates_witness : Date.Valid ⟨2023, 12, 30⟩ :=
  C7_valid_dates.1 duNone 0 ⟨[]⟩ ("Saturday 30th December, 2023")
    ⟨2023, 12, 30⟩ ⟨[]⟩ (fun _ _ _ h => nomatch h) (by decide)

/-- C8: on `None` and on the empty string, `parse_title_date` returns the
failure outcome without raising and returns the state unchanged — nothing
is appended to the failure log, so `get_failed_parses` and the failure
count are untouched. -/
theorem C8_empty_title (du : Nat → String → Except DuErr Date) (now : Nat)
    (st : DateParserState) :
    parse_title_date du now st .none_ = .ok (none, st) ∧
    parse_title_date du now st (.str "") = .ok (none, st) ∧
    get_failed_parses st = st.failed_parses := by
  exact ⟨rfl, by simp [parse_title_date], rfl⟩

/-- C9: the failure log grows monotonically and exactly with failures —
feeding `k` distinct unparseable titles, in any order (the statement holds
for every list), leaves exactly those `k` titles in the log, so the
failure count and `get_failed_parses` length are both `k`. -/
theorem C9_failure_log (du : Nat → String → Except DuErr Date) (now : Nat)
    (titles : List String) (_hnd : titles.Nodup)
    (h : ∀ t ∈ titles, Unparseable du now t) :
    (parse_many du now ⟨[]⟩ titles).failed_parses = titles ∧
    (get_failed_parses (parse_many du now ⟨[]⟩ titles)).length = titles.length := by
  have := parse_many_unparseable h ⟨[]⟩
  rw [this]
  exact ⟨by simp, by simp [get_failed_parses]⟩

/-- C10: `extract_preview` returns a string, and whenever the extracted
plain text (`get_text` output with whitespace runs collapsed) is longer
than `max_length`, the result is a prefix of that text of at most
`max_length` characters — cut back to just before the last space within
the `max_length`-prefix when one exists — with `"..."` appended, so its
length never exceeds `max_length + 3`. -/
theorem C10_preview_truncation (getText : String → String) (html : String)
    (maxLength : Nat) (_hpos : 0 < maxLength) (hne : html ≠ "")
    (hlong : maxLength < (extracted_text getText html).length) :
    (extract_preview getText html maxLength).data.length ≤ maxLength + 3 ∧
    ((∃ a rest,
        (extracted_text getText html).take maxLength = a ++ '\x20' :: rest ∧
        '\x20' ∉ rest ∧
        (extract_preview getText html maxLength).data = a ++ ['.', '.', '.']) ∨
      ('\x20' ∉ (extracted_text getText html).take maxLength ∧
        (extract_preview getText html maxLength).data =
          (extracted_text getText html).take maxLength ++ ['.', '.', '.'])) := by
  have hdata : (extract_preview getText html maxLength).data =
      rsplit_first ((extracted_text getText html).take maxLength) ++ ['.', '.', '.'] := by
    simp only [extract_preview, if_neg hne]
    rw [if_pos (show (extracted_text getText html).length > maxLength from hlong)]
  have htake : ((extracted_text getText html).take maxLength).length ≤ maxLength := by
    simp [List.length_take]
  rcases rsplit_first_spec ((extracted_text getText html).take maxLength) with
    ⟨rest, hcs, hrest⟩ | ⟨hns, heq⟩
  · constructor
    · rw [hdata]
      have hlen := congrArg List.length hcs
      simp only [List.length_append, List.length_cons, List.length_nil] at hlen
      simp only [List.length_append, List.length_cons, List.length_nil]
      omega
    · exact Or.inl ⟨_, rest, hcs, hrest, hdata⟩
  · constructor
    · rw [hdata, heq]
      simp only [List.length_append, List.length_cons, List.length_nil]
      omega
    · exact Or.inr ⟨hns, by rw [hdata, heq]⟩

/-- C10 (witness): a 24-character text previewed at `max_length = 10` is
cut at the last space of its 10-character prefix. -/
theorem C10_preview_truncation_witness :
    (extract_preview (fun s => s) ("hello brave new world xy") 10).data.length ≤ 10 + 3 ∧
    ((∃ a rest,
        (extracted_text (fun s => s) ("hello brave new world xy")).take 10 =
          a ++ '\x20' :: rest ∧
        '\x20' ∉ rest ∧
        (extract_preview (fun s => s) ("hello brave new world xy") 10).data =
          a ++ ['.', '.', '.']) ∨
      ('\x20' ∉ (extracted_text (fun s => s) ("hello brave new world xy")).take 10 ∧
        (extract_preview (fun s => s) ("hello brave new world xy") 10).data =
          (extracted_text (fun s => s) ("hello brave new world xy")).take 10 ++
            ['.', '.', '.'])) :=
  C10_preview_truncation (fun s => s) ("hello brave new world xy") 10
    (by decide) (by decide) (by decide)

/-- C9 (witness): two distinct unparseable titles leave a log of length
two. -/
theorem C9_failure_log_witness :
    (parse_many duNone 0 ⟨[]⟩ (["xyzzy", "garbled nonsense"])).failed_parses =
      ["xyzzy", "garbled nonsense"] ∧
    (get_failed_parses (parse_many duNone 0 ⟨[]⟩
      (["xyzzy", "garbled nonsense"]))).length = 2 :=
  C9_failure_log duNone 0 (["xyzzy", "garbled nonsense"]) (by decide) (by decide)

end DMP
